import Mathlib

/-!
Shallow embedding of the hrx-get crate (src/lib.rs), a reader for the
Human Readable Archive (.hrx) text format.

Rust strings are modelled as `List Char`: every character the parser
inspects (`<`, `=`, `>`, `\n`, the space) is ASCII, so the byte indices
used by the Rust code coincide with character indices, and UTF-8
continuation bytes can never be mistaken for one of those characters.
The `BTreeMap<String, String>` holding the parsed files is modelled as an
association list kept sorted by key, with `insertSorted` playing the role
of `BTreeMap::insert` (a later insert of an existing key overwrites the
stored value).
-/

namespace Hrx

/-- The error enum `Error` of src/lib.rs: `NoBoundary` and
`InvalidItem(String)`. -/
inductive Error where
  | noBoundary : Error
  | invalidItem : String → Error
deriving DecidableEq

/-- The byte scan of `find_boundary` in src/lib.rs.  The flag `first`
records whether the scan is at index 0, the only index at which `<` is
accepted; the Rust match arms are `(0, b'<')` continue, `(_, b'=')`
continue, `(i, b'>')` return the prefix up to and including index `i`,
anything else abort with `None`. -/
def findBoundaryGo : Bool → List Char → Option (List Char)
  | _, [] => none
  | first, c :: rest =>
    if first = true ∧ c = '<' then (findBoundaryGo false rest).map (c :: ·)
    else if c = '=' then (findBoundaryGo false rest).map (c :: ·)
    else if c = '>' then some [c]
    else none

/-- `find_boundary(data)` from src/lib.rs: the boundary prefix of the
input, when the scan finds one. -/
def find_boundary (data : List Char) : Option (List Char) :=
  findBoundaryGo true data

/-- The comment test of the parse loop:
`item.is_empty() || item.starts_with('\n')`. -/
def isComment (item : List Char) : Bool :=
  item.isEmpty || item.head? == some '\n'

/-- Classification of the remainder of a header item, after
`strip_prefix(' ')` succeeded: if it contains a newline, the part before
the first newline is the name and the part after it is the body
(`item.find('\n')`, `&item[..nl]`, `&item[1 + nl..]`); otherwise the
whole remainder is the name of a directory / empty file. -/
def entryOf (tl : List Char) : String × String :=
  if '\n' ∈ tl then
    (⟨tl.takeWhile (fun c => c != '\n')⟩,
     ⟨tl.drop ((tl.takeWhile (fun c => c != '\n')).length + 1)⟩)
  else
    (⟨tl⟩, "")

/-- `BTreeMap::insert` on the sorted-association-list model of
`BTreeMap<String, String>`: keys are kept in strictly increasing order
and inserting an existing key overwrites its value.  The comparison is
the lexicographic order on the character lists, which is what `Ord` on
Rust strings is (byte-wise lexicographic UTF-8 order coincides with
code-point lexicographic order). -/
def insertSorted (name content : String) :
    List (String × String) → List (String × String)
  | [] => [(name, content)]
  | (k, v) :: rest =>
    if name.data < k.data then (name, content) :: (k, v) :: rest
    else if name = k then (name, content) :: rest
    else (k, v) :: insertSorted name content rest

/-- The body of the `for item in data[boundary.len() - 1..].split(&boundary)`
loop of `Archive::parse`, processing the items in order: skip comments,
insert header items, fail on anything else. -/
def parseItems : List (List Char) → List (String × String) →
    Except Error (List (String × String))
  | [], files => .ok files
  | item :: rest, files =>
    if isComment item then
      parseItems rest files
    else if item.head? = some ' ' then
      parseItems rest (insertSorted (entryOf item.tail).1 (entryOf item.tail).2 files)
    else
      .error (.invalidItem ⟨item⟩)

/-- `str::split` with a non-empty literal pattern: leftmost,
non-overlapping occurrences of `delim` separate the pieces.  Structural
recursion on a fuel bounded by the length of the text; each recursive
step consumes at least one character when `delim` is non-empty, so with
fuel `s.length` the `0` case is never reached for the delimiters used
here (they start with a newline). -/
def splitGo (delim : List Char) : Nat → List Char → List (List Char)
  | _, [] => [[]]
  | 0, s => [s]
  | fuel + 1, c :: rest =>
    if delim.isPrefixOf (c :: rest) then
      [] :: splitGo delim fuel ((c :: rest).drop delim.length)
    else
      match splitGo delim fuel rest with
      | [] => [[c]]
      | t :: ts => (c :: t) :: ts

/-- `s.split(&delim)` for a non-empty delimiter string. -/
def splitSub (delim s : List Char) : List (List Char) :=
  splitGo delim s.length s

/-- The boundary found at the start of the buffer
(`find_boundary(data)` as used by `Archive::parse`). -/
def boundaryOf (data : String) : Option (List Char) :=
  find_boundary data.data

/-- The item list `data[boundary.len() - 1..].split(&boundary)` where
`boundary` is the newline followed by the marker `b`: the slice starts
one character before the end of the leading marker, so the split
delimiter aligns on the later occurrences only. -/
def itemsOf (data : String) (b : List Char) : List (List Char) :=
  splitSub ('\n' :: b) (data.data.drop b.length)

/-- Parsed Human Readable Archive data: the struct `Archive` of
src/lib.rs, whose `files: BTreeMap<String, String>` is modelled by a
key-sorted association list. -/
structure Archive where
  files : List (String × String)
deriving DecidableEq

/-- `Archive::parse` from src/lib.rs. -/
def parse (data : String) : Except Error Archive :=
  match boundaryOf data with
  | none => .error .noBoundary
  | some b => (parseItems (itemsOf data b) []).map Archive.mk

/-- `Archive::names`: the keys of the map, in its (sorted) order. -/
def Archive.names (a : Archive) : List String :=
  a.files.map Prod.fst

/-- `Archive::get`: exact-name lookup in the map. -/
def Archive.get (a : Archive) (name : String) : Option String :=
  a.files.lookup name

/-- `Archive::entries`: the (name, content) pairs in map order. -/
def Archive.entries (a : Archive) : List (String × String) :=
  a.files

/-- The entry a single item contributes, if any: `none` for comments and
for invalid items, the classified (name, content) pair for header items. -/
def itemEntry? (item : List Char) : Option (String × String) :=
  if isComment item then none
  else if item.head? = some ' ' then some (entryOf item.tail)
  else none

/-- An item the parse loop accepts without failing: a comment or a
header item starting with a space. -/
def isValidItem (item : List Char) : Bool :=
  isComment item || item.head? == some ' '

/-- Written from the spec's words, for comparison with `find_boundary`:
the input begins with a boundary of the exact shape one literal `<`,
then one or more `=` characters, then one literal `>`. -/
def specBoundaryShape : List Char → Bool
  | [] => false
  | c :: rest =>
    c == '<' && !(rest.takeWhile (fun d => d == '=')).isEmpty &&
      ((rest.drop (rest.takeWhile (fun d => d == '=')).length).head? == some '>')

/-- A tail consisting of zero or more `=` characters followed by `>`. -/
def eqsGt (l : List Char) : Bool :=
  (l.dropWhile (fun d => d == '=')).head? == some '>'

/-- The prefix shape `find_boundary` actually accepts: an optional `<`
at position 0, then zero or more `=`, then `>`. -/
def lenientShape : List Char → Bool
  | [] => false
  | c :: rest => if c = '<' then eqsGt rest else eqsGt (c :: rest)

/-- The invariant of the `BTreeMap` model: keys strictly increasing along
the association list. -/
def keysSorted (l : List (String × String)) : Prop :=
  l.Pairwise (fun p q => p.1 < q.1)

instance {ε α : Type} [DecidableEq ε] [DecidableEq α] : DecidableEq (Except ε α) := fun
  | .ok a, .ok b => decidable_of_iff (a = b) (by simp)
  | .ok _, .error _ => .isFalse (by simp)
  | .error _, .ok _ => .isFalse (by simp)
  | .error e, .error f => decidable_of_iff (e = f) (by simp)

/-! ### Order bridge: the character-list comparison used by `insertSorted`
is the `<` of the `LinearOrder` on `String`. -/

theorem strLt_iff (s t : String) : s.data < t.data ↔ s < t := by
  rw [String.lt_iff_toList_lt]
  exact Iff.rfl

theorem strLt_of_not_of_ne {s t : String} (h1 : ¬ s.data < t.data) (h2 : ¬ s = t) :
    t.data < s.data := by
  rw [strLt_iff] at h1 ⊢
  rcases lt_or_gt_of_ne h2 with h | h
  · exact absurd h h1
  · exact h

/-! ### Lemmas about the sorted-association-list model of `BTreeMap`. -/

theorem insertSorted_mem {n c : String} {l : List (String × String)}
    {p : String × String} (h : p ∈ insertSorted n c l) : p = (n, c) ∨ p ∈ l := by
  induction l with
  | nil => simpa [insertSorted] using h
  | cons kv rest ih =>
    obtain ⟨k, v⟩ := kv
    simp only [insertSorted] at h
    split at h
    · rcases List.mem_cons.mp h with h | h
      · exact Or.inl h
      · exact Or.inr h
    · split at h
      · rcases List.mem_cons.mp h with h | h
        · exact Or.inl h
        · exact Or.inr (List.mem_cons_of_mem _ h)
      · rcases List.mem_cons.mp h with h | h
        · exact Or.inr (List.mem_cons.mpr (Or.inl h))
        · rcases ih h with h | h
          · exact Or.inl h
          · exact Or.inr (List.mem_cons_of_mem _ h)

theorem insertSorted_sorted {n c : String} {l : List (String × String)}
    (h : keysSorted l) : keysSorted (insertSorted n c l) := by
  induction l with
  | nil => simp [insertSorted, keysSorted]
  | cons kv rest ih =>
    obtain ⟨k, v⟩ := kv
    rw [keysSorted, List.pairwise_cons] at h
    obtain ⟨hk, hrest⟩ := h
    rw [keysSorted]
    simp only [insertSorted]
    split
    · rename_i hlt
      rw [List.pairwise_cons]
      constructor
      · intro q hq
        rcases List.mem_cons.mp hq with h | h
        · subst h; exact (strLt_iff n k).mp hlt
        · exact lt_trans ((strLt_iff n k).mp hlt) (hk q h)
      · rw [List.pairwise_cons]
        exact ⟨hk, hrest⟩
    · split
      · rename_i hne heq
        subst heq
        rw [List.pairwise_cons]
        exact ⟨hk, hrest⟩
      · rename_i hge hne
        rw [List.pairwise_cons]
        constructor
        · intro q hq
          rcases insertSorted_mem hq with h | h
          · subst h
            exact (strLt_iff k n).mp (strLt_of_not_of_ne hge hne)
          · exact hk q h
        · exact ih hrest

theorem lookup_insertSorted_self (n c : String) (l : List (String × String)) :
    (insertSorted n c l).lookup n = some c := by
  induction l with
  | nil => simp [insertSorted, List.lookup]
  | cons kv rest ih =>
    obtain ⟨k, v⟩ := kv
    simp only [insertSorted]
    split
    · simp [List.lookup]
    · split
      · simp [List.lookup]
      · rename_i hge hne
        have : (n == k) = false := by simp [hne]
        simp [List.lookup, this, ih]

theorem lookup_insertSorted_ne {m n : String} (hmn : m ≠ n) (c : String)
    (l : List (String × String)) :
    (insertSorted n c l).lookup m = l.lookup m := by
  have hb : (m == n) = false := by simp [hmn]
  induction l with
  | nil => simp [insertSorted, List.lookup, hb]
  | cons kv rest ih =>
    obtain ⟨k, v⟩ := kv
    simp only [insertSorted]
    split
    · simp [List.lookup, hb]
    · split
      · rename_i hlt heq
        subst heq
        simp [List.lookup, hb]
      · simp [List.lookup, ih]

theorem lookup_eq_none_of_not_mem {n : String} {l : List (String × String)}
    (h : n ∉ l.map Prod.fst) : l.lookup n = none := by
  induction l with
  | nil => simp [List.lookup]
  | cons kv rest ih =>
    obtain ⟨k, v⟩ := kv
    simp only [List.map_cons, List.mem_cons, not_or] at h
    have : (n == k) = false := by simp [h.1]
    simp [List.lookup, this, ih h.2]

theorem lookup_of_mem_sorted {l : List (String × String)} (hs : keysSorted l)
    {p : String × String} (hp : p ∈ l) : l.lookup p.1 = some p.2 := by
  induction l with
  | nil => cases hp
  | cons kv rest ih =>
    obtain ⟨k, v⟩ := kv
    rw [keysSorted, List.pairwise_cons] at hs
    rcases List.mem_cons.mp hp with h | h
    · subst h
      simp [List.lookup]
    · have hk : k < p.1 := hs.1 p h
      have : (p.1 == k) = false := by
        simp only [beq_eq_false_iff_ne, ne_eq]
        intro e
        rw [e] at hk
        exact lt_irrefl k hk
      simp [List.lookup, this, ih hs.2 h]

/-! ### Lemmas about the classification of single items. -/

theorem takeWhile_append_newline (name content : List Char) (h : '\n' ∉ name) :
    (name ++ '\n' :: content).takeWhile (fun c => c != '\n') = name := by
  induction name with
  | nil => simp
  | cons c cs ih =>
    have hc : c ≠ '\n' := fun e => h (by simp [e])
    have hcs : '\n' ∉ cs := fun hm => h (List.mem_cons_of_mem _ hm)
    simp [List.takeWhile_cons, hc, ih hcs]

theorem entryOf_with_newline {name content : List Char} (h : '\n' ∉ name) :
    entryOf (name ++ '\n' :: content) = (⟨name⟩, ⟨content⟩) := by
  have hmem : '\n' ∈ name ++ '\n' :: content := by simp
  have ht : (name ++ '\n' :: content).takeWhile (fun c => c != '\n') = name :=
    takeWhile_append_newline name content h
  have hd : (name ++ '\n' :: content).drop (name.length + 1) = content := by
    rw [show name ++ '\n' :: content = (name ++ ['\n']) ++ content by simp]
    exact List.drop_left' (by simp)
  rw [entryOf, if_pos hmem, ht, hd]

theorem entryOf_no_newline {tl : List Char} (h : '\n' ∉ tl) :
    entryOf tl = (⟨tl⟩, "") := by
  rw [entryOf, if_neg h]

theorem isComment_header (tl : List Char) : isComment (' ' :: tl) = false := by
  simp [isComment]

theorem itemEntry?_header (tl : List Char) :
    itemEntry? (' ' :: tl) = some (entryOf tl) := by
  simp [itemEntry?, isComment]

theorem itemEntry?_comment {item : List Char} (h : isComment item = true) :
    itemEntry? item = none := by
  simp [itemEntry?, h]

/-! ### Lemmas about the parse loop. -/

theorem parseItems_ne_noBoundary (items : List (List Char))
    (acc : List (String × String)) :
    parseItems items acc ≠ .error .noBoundary := by
  induction items generalizing acc with
  | nil => simp [parseItems]
  | cons item rest ih =>
    by_cases h1 : isComment item
    · simpa [parseItems, h1] using ih acc
    · by_cases h2 : item.head? = some ' '
      · simpa [parseItems, h1, h2] using ih _
      · simp [parseItems, h1, h2]

theorem parseItems_sorted {items : List (List Char)}
    {acc fs : List (String × String)} (hacc : keysSorted acc)
    (h : parseItems items acc = .ok fs) : keysSorted fs := by
  induction items generalizing acc with
  | nil =>
    simp only [parseItems, Except.ok.injEq] at h
    exact h ▸ hacc
  | cons item rest ih =>
    by_cases h1 : isComment item
    · exact ih hacc (by simpa [parseItems, h1] using h)
    · by_cases h2 : item.head? = some ' '
      · exact ih (insertSorted_sorted hacc) (by simpa [parseItems, h1, h2] using h)
      · simp [parseItems, h1, h2] at h

/-- What `lookup` finds after the loop: the content of the last entry of
the item list carrying the key, and otherwise whatever the accumulator
already associated to it. -/
theorem parseItems_lookup {items : List (List Char)}
    {acc fs : List (String × String)} (h : parseItems items acc = .ok fs)
    (n : String) :
    fs.lookup n =
      (((items.filterMap itemEntry?).filter (fun q => q.1 == n)).getLast?).elim
        (acc.lookup n) (fun q => some q.2) := by
  induction items generalizing acc with
  | nil =>
    simp only [parseItems, Except.ok.injEq] at h
    simp [h]
  | cons item rest ih =>
    by_cases h1 : isComment item
    · rw [List.filterMap_cons, itemEntry?_comment h1]
      exact ih (by simpa [parseItems, h1] using h)
    · by_cases h2 : item.head? = some ' '
      · have hstep : parseItems rest
            (insertSorted (entryOf item.tail).1 (entryOf item.tail).2 acc) = .ok fs := by
          simpa [parseItems, h1, h2] using h
        have hie : itemEntry? item = some (entryOf item.tail) := by
          simp [itemEntry?, h1, h2]
        rw [List.filterMap_cons, hie]
        have ihx := ih hstep
        by_cases he : (entryOf item.tail).1 = n
        · rw [List.filter_cons_of_pos (by simpa using he)]
          cases hF : ((rest.filterMap itemEntry?).filter (fun q => q.1 == n)) with
          | nil =>
            rw [hF] at ihx
            simp only [List.getLast?_nil, Option.elim_none] at ihx
            simp only [List.getLast?_singleton, Option.elim_some]
            rw [ihx, ← he]
            exact lookup_insertSorted_self _ _ _
          | cons q qs =>
            rw [hF] at ihx
            rw [List.getLast?_cons_cons]
            cases hq : (q :: qs).getLast? with
            | none => simp at hq
            | some p =>
              rw [hq] at ihx
              simp only [Option.elim_some] at ihx ⊢
              exact ihx
        · rw [List.filter_cons_of_neg (by simpa using he)]
          cases hF : ((rest.filterMap itemEntry?).filter (fun q => q.1 == n)) with
          | nil =>
            rw [hF] at ihx
            simp only [List.getLast?_nil, Option.elim_none] at ihx ⊢
            rw [ihx, lookup_insertSorted_ne (fun e => he e.symm)]
          | cons q qs =>
            rw [hF] at ihx
            cases hq : (q :: qs).getLast? with
            | none => simp at hq
            | some p =>
              rw [hq] at ihx
              simp only [Option.elim_some] at ihx ⊢
              exact ihx
      · simp [parseItems, h1, h2] at h

theorem parseItems_comment_skip {c : List Char} (hc : isComment c = true)
    (l1 l2 : List (List Char)) (acc : List (String × String)) :
    parseItems (l1 ++ c :: l2) acc = parseItems (l1 ++ l2) acc := by
  induction l1 generalizing acc with
  | nil => simp [parseItems, hc]
  | cons x l1' ih =>
    by_cases h1 : isComment x
    · simp [parseItems, h1, ih]
    · by_cases h2 : x.head? = some ' ' <;> simp [parseItems, h1, h2, ih]

theorem parseItems_invalid {items : List (List Char)} {bad : List Char}
    (hmem : bad ∈ items) (hbad : isValidItem bad = false)
    (acc : List (String × String)) :
    ∃ t, t ∈ items ∧ isValidItem t = false ∧
      parseItems items acc = .error (.invalidItem ⟨t⟩) := by
  induction items generalizing acc with
  | nil => cases hmem
  | cons x rest ih =>
    by_cases h1 : isComment x
    · have hbx : bad ≠ x := by
        intro e
        rw [e, isValidItem, h1] at hbad
        simp at hbad
      have hbr : bad ∈ rest := by
        rcases List.mem_cons.mp hmem with h | h
        · exact absurd h hbx
        · exact h
      obtain ⟨t, ht, hv, hp⟩ := ih hbr acc
      exact ⟨t, List.mem_cons_of_mem _ ht, hv, by simpa [parseItems, h1] using hp⟩
    · by_cases h2 : x.head? = some ' '
      · have hbx : bad ≠ x := by
          intro e
          rw [e, isValidItem, h2] at hbad
          simp at hbad
        have hbr : bad ∈ rest := by
          rcases List.mem_cons.mp hmem with h | h
          · exact absurd h hbx
          · exact h
        obtain ⟨t, ht, hv, hp⟩ := ih hbr _
        exact ⟨t, List.mem_cons_of_mem _ ht, hv, by simpa [parseItems, h1, h2] using hp⟩
      · refine ⟨x, List.mem_cons_self x rest, ?_, by simp [parseItems, h1, h2]⟩
        rw [isValidItem]
        simp only [h1, Bool.false_or]
        simpa using h2

/-! ### Lemmas about boundary detection. -/

theorem findBoundaryGo_false_eq_none (l : List Char) :
    findBoundaryGo false l = none ↔ eqsGt l = false := by
  induction l with
  | nil => simp [findBoundaryGo, eqsGt]
  | cons c rest ih =>
    by_cases h1 : c = '='
    · subst h1
      simp [findBoundaryGo, eqsGt, List.dropWhile_cons, Option.map_eq_none'] at ih ⊢
      exact ih
    · by_cases h2 : c = '>'
      · subst h2
        simp [findBoundaryGo, eqsGt, List.dropWhile_cons]
      · simp [findBoundaryGo, eqsGt, List.dropWhile_cons, h1, h2]

theorem find_boundary_none_iff (data : List Char) :
    find_boundary data = none ↔ lenientShape data = false := by
  cases data with
  | nil => simp [find_boundary, findBoundaryGo, lenientShape]
  | cons c rest =>
    by_cases h1 : c = '<'
    · subst h1
      simp [find_boundary, findBoundaryGo, lenientShape, Option.map_eq_none',
        findBoundaryGo_false_eq_none]
    · by_cases h2 : c = '='
      · subst h2
        simp [find_boundary, findBoundaryGo, lenientShape, Option.map_eq_none',
          findBoundaryGo_false_eq_none, eqsGt, List.dropWhile_cons]
      · by_cases h3 : c = '>'
        · subst h3
          simp [find_boundary, findBoundaryGo, lenientShape, eqsGt, List.dropWhile_cons]
        · simp [find_boundary, findBoundaryGo, lenientShape, eqsGt,
            List.dropWhile_cons, h1, h2, h3]

theorem findBoundaryGo_false_eqs (eqs rest : List Char)
    (heq : ∀ c ∈ eqs, c = '=') :
    findBoundaryGo false (eqs ++ '>' :: rest) = some (eqs ++ ['>']) := by
  induction eqs with
  | nil => simp [findBoundaryGo]
  | cons e es ih =>
    have he : e = '=' := heq e (List.mem_cons_self e es)
    subst he
    have ihx := ih (fun c hc => heq c (List.mem_cons_of_mem _ hc))
    simp [findBoundaryGo, ihx]

theorem find_boundary_spec_prefix (eqs rest : List Char)
    (heq : ∀ c ∈ eqs, c = '=') :
    find_boundary ('<' :: eqs ++ '>' :: rest) = some ('<' :: (eqs ++ ['>'])) := by
  have := findBoundaryGo_false_eqs eqs rest heq
  simp [find_boundary, findBoundaryGo, this]

/-! ### Unfolding `parse` once the boundary is known. -/

theorem parse_eq_of_boundary {data : String} {b : List Char}
    (hb : boundaryOf data = some b) :
    parse data = (parseItems (itemsOf data b) []).map Archive.mk := by
  simp [parse, hb]

theorem parse_ok_files {data : String} {b : List Char} {a : Archive}
    (hb : boundaryOf data = some b) (ha : parse data = .ok a) :
    parseItems (itemsOf data b) [] = .ok a.files := by
  rw [parse_eq_of_boundary hb] at ha
  cases hp : parseItems (itemsOf data b) [] with
  | ok fs =>
    rw [hp] at ha
    simp only [Except.map, Except.ok.injEq] at ha
    rw [← ha]
  | error e =>
    rw [hp] at ha
    simp [Except.map] at ha

theorem parse_ne_noBoundary_of_boundary {d : String} {b : List Char}
    (hb : boundaryOf d = some b) : parse d ≠ .error .noBoundary := by
  rw [parse_eq_of_boundary hb]
  cases hp : parseItems (itemsOf d b) [] with
  | ok fs => simp [Except.map]
  | error e =>
    simp only [Except.map]
    intro h
    rw [Except.error.injEq] at h
    exact parseItems_ne_noBoundary _ _ (hp.trans (by rw [h]))

theorem parse_noBoundary_iff (d : String) :
    parse d = .error .noBoundary ↔ find_boundary d.data = none := by
  constructor
  · intro h
    cases hb : find_boundary d.data with
    | none => rfl
    | some b => exact absurd h (parse_ne_noBoundary_of_boundary hb)
  · intro h
    simp [parse, boundaryOf, h]

theorem parse_ok_boundary {data : String} {a : Archive}
    (ha : parse data = .ok a) : ∃ b, boundaryOf data = some b := by
  cases hbd : boundaryOf data with
  | none => simp [parse, hbd] at ha
  | some b => exact ⟨b, rfl⟩

theorem entryOf_fst_no_newline (tl : List Char) : '\n' ∉ (entryOf tl).1.data := by
  by_cases h : '\n' ∈ tl
  · rw [entryOf, if_pos h]
    intro hmem
    have := List.mem_takeWhile_imp hmem
    simp at this
  · rw [entryOf, if_neg h]
    exact h

theorem parseItems_no_newline {items : List (List Char)}
    {acc fs : List (String × String)}
    (hacc : ∀ p ∈ acc, '\n' ∉ p.1.data)
    (h : parseItems items acc = .ok fs) :
    ∀ p ∈ fs, '\n' ∉ p.1.data := by
  induction items generalizing acc with
  | nil =>
    simp only [parseItems, Except.ok.injEq] at h
    exact h ▸ hacc
  | cons item rest ih =>
    by_cases h1 : isComment item
    · exact ih hacc (by simpa [parseItems, h1] using h)
    · by_cases h2 : item.head? = some ' '
      · refine ih ?_ (by simpa [parseItems, h1, h2] using h)
        intro p hp
        rcases insertSorted_mem hp with hP | hP
        · subst hP
          exact entryOf_fst_no_newline _
        · exact hacc p hP
      · simp [parseItems, h1, h2] at h

/-! ### The claims. -/

/-- Claim C1, counterexample: on the spec's concrete input the parser
stores "# Hi\nBody." for hello.md, not "# Hi\nBody.\n" — the newline
before the next boundary is consumed as part of the split delimiter.
The crate's own doctest pins the same behaviour. -/
theorem c1_counterexample :
    parse "<===> hello.md\n# Hi\nBody.\n<===>\nA comment.\n<===> foo.txt\nOther.\n"
        = .ok ⟨[("foo.txt", "Other.\n"), ("hello.md", "# Hi\nBody.")]⟩ ∧
    Archive.get ⟨[("foo.txt", "Other.\n"), ("hello.md", "# Hi\nBody.")]⟩ "hello.md"
        = some "# Hi\nBody." ∧
    some ("# Hi\nBody." : String) ≠ some "# Hi\nBody.\n" := by
  exact ⟨by decide, by decide, by decide⟩

/-- Claim C1 (amended): for the spec's concrete input, parse succeeds with
names() == ["foo.txt", "hello.md"], get("hello.md") == Some("# Hi\nBody.")
(the newline before the boundary belongs to the delimiter, not the
content) and get("foo.txt") == Some("Other.\n") (at end of buffer there
is no delimiter, so the trailing newline stays). -/
theorem c1_amended :
    parse "<===> hello.md\n# Hi\nBody.\n<===>\nA comment.\n<===> foo.txt\nOther.\n"
        = .ok ⟨[("foo.txt", "Other.\n"), ("hello.md", "# Hi\nBody.")]⟩ ∧
    Archive.names ⟨[("foo.txt", "Other.\n"), ("hello.md", "# Hi\nBody.")]⟩
        = ["foo.txt", "hello.md"] ∧
    Archive.get ⟨[("foo.txt", "Other.\n"), ("hello.md", "# Hi\nBody.")]⟩ "hello.md"
        = some "# Hi\nBody." ∧
    Archive.get ⟨[("foo.txt", "Other.\n"), ("hello.md", "# Hi\nBody.")]⟩ "foo.txt"
        = some "Other.\n" := by
  exact ⟨by decide, by decide, by decide, by decide⟩

/-- Claim C2, counterexample: the input ">" does not begin with a
boundary of the shape one `<`, one or more `=`, one `>`, yet parse does
not return NoBoundary — it succeeds with an empty archive, because the
scanner accepts `>` at index 0 ahead of any `<`. -/
theorem c2_counterexample :
    specBoundaryShape ">".data = false ∧
    parse ">" = .ok ⟨[]⟩ ∧
    parse ">" ≠ .error .noBoundary := by
  exact ⟨by decide, by decide, by decide⟩

/-- Claim C2 (amended): parse returns NoBoundary exactly when the input
does not begin with the looser shape the scanner accepts — an optional
`<` at position 0, zero or more `=`, then `>` — and when the input does
begin with the exact shape one `<`, one or more `=`, one `>`, boundary
detection returns exactly that literal prefix and no NoBoundary error is
raised. -/
theorem c2_amended (d : String) :
    (parse d = .error .noBoundary ↔ lenientShape d.data = false) ∧
    (∀ eqs rest : List Char, (∀ c ∈ eqs, c = '=') →
      d.data = '<' :: eqs ++ '>' :: rest →
      find_boundary d.data = some ('<' :: (eqs ++ ['>'])) ∧
        parse d ≠ .error .noBoundary) := by
  constructor
  · rw [parse_noBoundary_iff d, find_boundary_none_iff]
  · intro eqs rest heq hd
    have hfb : find_boundary d.data = some ('<' :: (eqs ++ ['>'])) := by
      rw [hd]
      exact find_boundary_spec_prefix eqs rest heq
    exact ⟨hfb, parse_ne_noBoundary_of_boundary hfb⟩

/-- Witness for C2 (amended) at the concrete inputs "nope" (no boundary)
and "<==> a" (exact spec shape with two equals signs). -/
theorem c2_witness :
    (parse "nope" = .error .noBoundary ↔ lenientShape "nope".data = false) ∧
    (find_boundary "<==> a".data = some ('<' :: (['=', '='] ++ ['>'])) ∧
      parse "<==> a" ≠ .error .noBoundary) := by
  refine ⟨(c2_amended "nope").1,
    (c2_amended "<==> a").2 ['=', '='] (" a".data) (by decide) (by decide)⟩

/-- Claim C3, counterexample: the round-trip fails for a name containing
a newline.  For the buffer below, the item " a\nb\nc" has the shape
" " + name + "\n" + content with name "a\nb" and content "c", it is
immediately followed by the delimiter, no later item defines that name,
and yet get("a\nb") is absent: the parser splits the item at its first
newline, storing name "a" with content "b\nc". -/
theorem c3_counterexample :
    boundaryOf "<=> a\nb\nc\n<=>" = some ['<', '=', '>'] ∧
    itemsOf "<=> a\nb\nc\n<=>" ['<', '=', '>']
        = [' ' :: ("a\nb".data ++ '\n' :: "c".data), []] ∧
    List.filterMap itemEntry? [([] : List Char)] = [] ∧
    parse "<=> a\nb\nc\n<=>" = .ok ⟨[("a", "b\nc")]⟩ ∧
    Archive.get ⟨[("a", "b\nc")]⟩ "a\nb" = none := by
  exact ⟨by decide, by decide, by decide, by decide, by decide⟩

/-- Claim C3 (amended): round-trip for names without embedded newlines.
If a successfully parsed buffer contains an entry item written as
" " + name + "\n" + content, where the name contains no newline
character, and no later item defines the same name, then get(name)
returns exactly the content, including any trailing newline inside it. -/
theorem c3_roundtrip {data : String} {b name content : List Char}
    {l1 l2 : List (List Char)} {a : Archive}
    (hb : boundaryOf data = some b) (ha : parse data = .ok a)
    (hsplit : itemsOf data b = l1 ++ (' ' :: (name ++ '\n' :: content)) :: l2)
    (hname : '\n' ∉ name)
    (hlater : ∀ q ∈ l2.filterMap itemEntry?, q.1 ≠ (⟨name⟩ : String)) :
    a.get ⟨name⟩ = some ⟨content⟩ := by
  have hfs := parse_ok_files hb ha
  have hl := parseItems_lookup hfs (⟨name⟩ : String)
  rw [hsplit, List.filterMap_append, List.filterMap_cons, itemEntry?_header,
    entryOf_with_newline hname] at hl
  have hB : (l2.filterMap itemEntry?).filter
      (fun q => q.1 == (⟨name⟩ : String)) = [] := by
    rw [List.filter_eq_nil_iff]
    intro q hq
    simpa using hlater q hq
  rw [List.filter_append, List.filter_cons_of_pos (by simp), hB,
    List.getLast?_concat] at hl
  simpa [Archive.get, Option.elim_some] using hl

/-- Witness for C3 (amended): the buffer with the single entry item
" n\nc" followed by the delimiter round-trips to get("n") == Some("c"). -/
theorem c3_witness :
    parse "<=> n\nc\n<=>" = .ok ⟨[("n", "c")]⟩ ∧
    Archive.get ⟨[("n", "c")]⟩ "n" = some "c" :=
  ⟨by decide,
    @c3_roundtrip "<=> n\nc\n<=>" ['<', '=', '>'] ("n".data) ("c".data) [] [[]]
      ⟨[("n", "c")]⟩ (by decide) (by decide) (by decide) (by decide)
      (by
        rw [show List.filterMap itemEntry? [([] : List Char)] = [] from by decide]
        intro q hq
        cases hq)⟩

/-- Claim C4: when the same name occurs in more than one item of a
successfully parsed buffer, get returns the content of the last
occurrence in source order — the later insertions overwrite the earlier
ones. -/
theorem c4_last_wins {data : String} {b : List Char} {a : Archive} {n : String}
    {p : String × String}
    (hb : boundaryOf data = some b) (ha : parse data = .ok a)
    (_hdup : 1 < (((itemsOf data b).filterMap itemEntry?).filter
        (fun q => q.1 == n)).length)
    (hlast : (((itemsOf data b).filterMap itemEntry?).filter
        (fun q => q.1 == n)).getLast? = some p) :
    a.get n = some p.2 := by
  have hfs := parse_ok_files hb ha
  have hl := parseItems_lookup hfs n
  rw [hlast] at hl
  simpa [Archive.get, Option.elim_some] using hl

/-- Witness for C4: the name "a" occurs in two items with contents "1"
then "2"; get("a") is the content of the last occurrence. -/
theorem c4_witness :
    parse "<=> a\n1\n<=> a\n2" = .ok ⟨[("a", "2")]⟩ ∧
    Archive.get ⟨[("a", "2")]⟩ "a" = some "2" :=
  ⟨by decide,
    @c4_last_wins "<=> a\n1\n<=> a\n2" ['<', '=', '>'] ⟨[("a", "2")]⟩ "a" ("a", "2")
      (by decide) (by decide) (by decide) (by decide)⟩

/-- Claim C5: for every archive produced by a successful parse, names()
is in strict lexicographic order — each name strictly less than the next
— with no duplicates, independently of the order of the entries in the
source buffer. -/
theorem c5_names_sorted {data : String} {a : Archive}
    (ha : parse data = .ok a) :
    List.Sorted (· < ·) a.names ∧ a.names.Nodup := by
  obtain ⟨b, hb⟩ := parse_ok_boundary ha
  have hfs := parse_ok_files hb ha
  have hsorted : keysSorted a.files :=
    parseItems_sorted (by simp [keysSorted]) hfs
  have hp : List.Pairwise (fun s t : String => s < t) a.names := by
    rw [Archive.names, List.pairwise_map]
    exact hsorted
  exact ⟨hp, List.Pairwise.imp (fun h => ne_of_lt h) hp⟩

/-- Witness for C5: a buffer whose entries appear in non-lexicographic
source order still enumerates sorted and duplicate-free. -/
theorem c5_witness :
    List.Sorted (· < ·) (Archive.names ⟨[("a", "1"), ("b", "2")]⟩) ∧
    (Archive.names ⟨[("a", "1"), ("b", "2")]⟩).Nodup :=
  @c5_names_sorted "<=> b\n2\n<=> a\n1" ⟨[("a", "1"), ("b", "2")]⟩ (by decide)

/-- Claim C6, counterexample: the buffer below contains the header item
" a" with no embedded newline, but a later item defines the same name,
so get("a") is Some("X") rather than Some("") — the claim's unconditional
"get(name) == Some(\"\")" fails. -/
theorem c6_counterexample :
    boundaryOf "<=> a\n<=> a\nX" = some ['<', '=', '>'] ∧
    itemsOf "<=> a\n<=> a\nX" ['<', '=', '>'] = [' ' :: "a".data, " a\nX".data] ∧
    '\n' ∉ "a".data ∧
    parse "<=> a\n<=> a\nX" = .ok ⟨[("a", "X")]⟩ ∧
    Archive.get ⟨[("a", "X")]⟩ "a" = some "X" ∧
    some ("X" : String) ≠ some "" := by
  exact ⟨by decide, by decide, by decide, by decide, by decide, by decide⟩

/-- Claim C6 (amended): a header item with no embedded newline is
accepted as a valid entry with empty content, and get(name) == Some("")
provided no later item defines the same name; in particular the spec's
concrete scenario parses with get("dir/empty") == Some("") and
get("a.txt") == Some("X\n"). -/
theorem c6_empty_entry {data : String} {b name : List Char}
    {l1 l2 : List (List Char)} {a : Archive}
    (hb : boundaryOf data = some b) (ha : parse data = .ok a)
    (hsplit : itemsOf data b = l1 ++ (' ' :: name) :: l2)
    (hname : '\n' ∉ name)
    (hlater : ∀ q ∈ l2.filterMap itemEntry?, q.1 ≠ (⟨name⟩ : String)) :
    a.get ⟨name⟩ = some "" ∧
    parse "<=====> dir/empty\n<=====> a.txt\nX\n"
        = .ok ⟨[("a.txt", "X\n"), ("dir/empty", "")]⟩ ∧
    Archive.get ⟨[("a.txt", "X\n"), ("dir/empty", "")]⟩ "dir/empty" = some "" ∧
    Archive.get ⟨[("a.txt", "X\n"), ("dir/empty", "")]⟩ "a.txt" = some "X\n" := by
  refine ⟨?_, by decide, by decide, by decide⟩
  have hfs := parse_ok_files hb ha
  have hl := parseItems_lookup hfs (⟨name⟩ : String)
  rw [hsplit, List.filterMap_append, List.filterMap_cons, itemEntry?_header,
    entryOf_no_newline hname] at hl
  have hB : (l2.filterMap itemEntry?).filter
      (fun q => q.1 == (⟨name⟩ : String)) = [] := by
    rw [List.filter_eq_nil_iff]
    intro q hq
    simpa using hlater q hq
  rw [List.filter_append, List.filter_cons_of_pos (by simp), hB,
    List.getLast?_concat] at hl
  simpa [Archive.get, Option.elim_some] using hl

/-- Witness for C6 (amended): the buffer "<=> a" consists of the single
header item " a" with no newline; get("a") == Some(""). -/
theorem c6_witness :
    Archive.get ⟨[("a", "")]⟩ "a" = some "" ∧
    parse "<=====> dir/empty\n<=====> a.txt\nX\n"
        = .ok ⟨[("a.txt", "X\n"), ("dir/empty", "")]⟩ ∧
    Archive.get ⟨[("a.txt", "X\n"), ("dir/empty", "")]⟩ "dir/empty" = some "" ∧
    Archive.get ⟨[("a.txt", "X\n"), ("dir/empty", "")]⟩ "a.txt" = some "X\n" :=
  @c6_empty_entry "<=> a" ['<', '=', '>'] ("a".data) [] [] ⟨[("a", "")]⟩
    (by decide) (by decide) (by decide) (by decide)
    (by intro q hq; cases hq)

/-- Claim C7: if some item of the split is neither a comment nor starts
with a space, parse fails — it never returns an archive — and the error
is InvalidItem carrying the literal text of the offending item (the
first invalid one in the buffer). -/
theorem c7_invalid_item {data : String} {b bad : List Char}
    (hb : boundaryOf data = some b)
    (hmem : bad ∈ itemsOf data b) (hbad : isValidItem bad = false) :
    (∀ a, parse data ≠ .ok a) ∧
    ∃ t, t ∈ itemsOf data b ∧ isValidItem t = false ∧
      parse data = .error (.invalidItem ⟨t⟩) := by
  obtain ⟨t, ht, hv, hp⟩ := parseItems_invalid hmem hbad []
  constructor
  · intro a ha
    have hok := parse_ok_files hb ha
    rw [hok] at hp
    cases hp
  · exact ⟨t, ht, hv, by rw [parse_eq_of_boundary hb, hp]; rfl⟩

/-- Witness for C7: the buffer "<=>x" splits into the single item "x",
which is invalid, and parse reports exactly it. -/
theorem c7_witness :
    (∀ a, parse "<=>x" ≠ .ok a) ∧
    ∃ t, t ∈ itemsOf "<=>x" ['<', '=', '>'] ∧ isValidItem t = false ∧
      parse "<=>x" = .error (.invalidItem ⟨t⟩) :=
  @c7_invalid_item "<=>x" ['<', '=', '>'] ("x".data)
    (by decide) (by decide) (by decide)

/-- Claim C8: a comment item contributes no name and changes no entry —
parsing a buffer whose item sequence contains a comment gives the same
result as parsing a buffer with that comment item removed. -/
theorem c8_comment_removed {d d' : String} {b c : List Char}
    {l1 l2 : List (List Char)}
    (hb : boundaryOf d = some b) (hb' : boundaryOf d' = some b)
    (hc : isComment c = true)
    (hs : itemsOf d b = l1 ++ c :: l2) (hs' : itemsOf d' b = l1 ++ l2) :
    parse d = parse d' := by
  rw [parse_eq_of_boundary hb, parse_eq_of_boundary hb', hs, hs',
    parseItems_comment_skip hc]

/-- Witness for C8: removing the comment item "\nQ" from a buffer leaves
the parse result unchanged. -/
theorem c8_witness :
    parse "<=> a\nX\n<=>\nQ\n<=> b\nY" = parse "<=> a\nX\n<=> b\nY" :=
  @c8_comment_removed "<=> a\nX\n<=>\nQ\n<=> b\nY" "<=> a\nX\n<=> b\nY"
    ['<', '=', '>'] ("\nQ".data) [" a\nX".data] [" b\nY".data]
    (by decide) (by decide) (by decide) (by decide) (by decide)

/-- Claim C9, counterexample: the buffer "<=> \nfoo" parses its single
item " \nfoo" into an entry whose name is the empty string — the empty
string appears in names() and get("") is present, so entry names are not
always non-empty. -/
theorem c9_counterexample :
    parse "<=> \nfoo" = .ok ⟨[("", "foo")]⟩ ∧
    Archive.names ⟨[("", "foo")]⟩ = [""] ∧
    Archive.get ⟨[("", "foo")]⟩ "" = some "foo" := by
  exact ⟨by decide, by decide, by decide⟩

/-- Claim C9 (amended): entry names of a parsed archive need not be
non-empty; the invariant that does hold is that no entry name contains a
newline character (a name is always cut at the first newline of its
item, or is a remainder containing none). -/
theorem c9_no_newline_names {data : String} {a : Archive}
    (ha : parse data = .ok a) :
    ∀ n ∈ a.names, '\n' ∉ n.data := by
  obtain ⟨b, hb⟩ := parse_ok_boundary ha
  have hfs := parse_ok_files hb ha
  have hinv := parseItems_no_newline (by simp) hfs
  intro n hn
  rw [Archive.names] at hn
  obtain ⟨p, hp, hpe⟩ := List.mem_map.mp hn
  exact hpe ▸ hinv p hp

/-- Witness for C9 (amended) at a concrete archive and name. -/
theorem c9_witness : '\n' ∉ ("a" : String).data :=
  @c9_no_newline_names "<=> a\nX" ⟨[("a", "X")]⟩ (by decide) "a" (by decide)

/-- Claim C10: accessor consistency on every successfully parsed archive:
the first components of entries() are exactly names(), get agrees with
every pair yielded by entries(), and get is absent on every name outside
names(). -/
theorem c10_accessors {data : String} {a : Archive}
    (ha : parse data = .ok a) :
    a.entries.map Prod.fst = a.names ∧
    (∀ p ∈ a.entries, a.get p.1 = some p.2) ∧
    (∀ n : String, n ∉ a.names → a.get n = none) := by
  obtain ⟨b, hb⟩ := parse_ok_boundary ha
  have hfs := parse_ok_files hb ha
  have hsorted : keysSorted a.files :=
    parseItems_sorted (by simp [keysSorted]) hfs
  refine ⟨rfl, ?_, ?_⟩
  · intro p hp
    exact lookup_of_mem_sorted hsorted hp
  · intro n hn
    exact lookup_eq_none_of_not_mem hn

/-- Witness for C10 at a concrete two-entry archive. -/
theorem c10_witness :
    (Archive.entries ⟨[("a", "1"), ("b", "2")]⟩).map Prod.fst
        = Archive.names ⟨[("a", "1"), ("b", "2")]⟩ ∧
    (∀ p ∈ Archive.entries ⟨[("a", "1"), ("b", "2")]⟩,
      Archive.get ⟨[("a", "1"), ("b", "2")]⟩ p.1 = some p.2) ∧
    (∀ n : String, n ∉ Archive.names ⟨[("a", "1"), ("b", "2")]⟩ →
      Archive.get ⟨[("a", "1"), ("b", "2")]⟩ n = none) :=
  @c10_accessors "<=> b\n2\n<=> a\n1" ⟨[("a", "1"), ("b", "2")]⟩ (by decide)

example : parse "<=> a\nX" = .ok ⟨[("a", "X")]⟩ := by decide
example : parse "<=> a" = .ok ⟨[("a", "")]⟩ := by decide
example : parse ">" = .ok ⟨[]⟩ := by decide
example : parse "nope" = .error .noBoundary := by decide
example : parse "<=>x" = .error (.invalidItem "x") := by decide

end Hrx
